import Mathlib

/-!
Verification of the CheckersGame engine.

A shallow embedding of the console checkers engine (`CheckersGame.cpp`).
The 8×8 board of `int` cells is modelled as a total function
`Int → Int → Piece`; every array read in the source is guarded by
`inBounds`, and the engine only ever touches cells with coordinates in
`0..7`, so a total function over `Int` is a faithful model.  Move
generation, move application, promotion, the coordinate parser and the
turn/multi-capture state machine of `main` are translated definition by
definition from the source.
-/

set_option maxHeartbeats 1000000

/-- Piece values of the source enum `Piece` (0 = empty, white/black man/king). -/
inductive Piece where
  | EMPTY
  | W_MAN
  | W_KING
  | B_MAN
  | B_KING
deriving DecidableEq, Repr

/-- The two players of the source enum `Player` (WHITE = Player 1, BLACK = Player 2). -/
inductive Player where
  | WHITE
  | BLACK
deriving DecidableEq, Repr

open Piece Player

/-- The source `Move` struct: origin `(fr, fc)`, destination `(tr, tc)`,
capture flag, and captured square `(cr, cc)` (only meaningful when
`isCapture` is true; the source stores `-1, -1` for simple moves). -/
structure Move where
  fr : Int
  fc : Int
  tr : Int
  tc : Int
  isCapture : Bool
  cr : Int
  cc : Int
deriving DecidableEq, Repr

/-- The board `int board[8][8]`, as a total function on integer coordinates.
Cells outside `0..7 × 0..7` are phantom cells the engine never touches. -/
abbrev Board := Int → Int → Piece

/-- Source `inBounds(r, c)`: is `(r, c)` inside the 8×8 board? -/
def inBounds (r c : Int) : Bool :=
  decide (0 ≤ r ∧ r < 8 ∧ 0 ≤ c ∧ c < 8)

/-- Source `isDarkSquare(r, c)`: dark squares are those with `(r + c)` odd. -/
def isDarkSquare (r c : Int) : Bool :=
  (r + c) % 2 == 1

/-- Source `isKing(p)`. -/
def isKing (p : Piece) : Bool :=
  p == W_KING || p == B_KING

/-- Source `belongsTo(p, pl)`: does piece `p` belong to player `pl`?  `false` for `EMPTY`. -/
def belongsTo (p : Piece) (pl : Player) : Bool :=
  match p, pl with
  | EMPTY, _ => false
  | _, WHITE => p == W_MAN || p == W_KING
  | _, BLACK => p == B_MAN || p == B_KING

/-- Source `isEnemy(a, b)`: both non-empty and of different colours. -/
def isEnemy (a b : Piece) : Bool :=
  if a == EMPTY || b == EMPTY then false
  else (a == W_MAN || a == W_KING) != (b == W_MAN || b == W_KING)

/-- Source `initBoard()`: white men on dark squares of rows 0–2, black men on dark
squares of rows 5–7, everything else empty. -/
def initBoard : Board := fun r c =>
  if 0 ≤ r ∧ r < 3 ∧ 0 ≤ c ∧ c < 8 ∧ isDarkSquare r c = true then W_MAN
  else if 5 ≤ r ∧ r < 8 ∧ 0 ≤ c ∧ c < 8 ∧ isDarkSquare r c = true then B_MAN
  else EMPTY

/-- Source `forwardDir(pl)`: white moves toward increasing row, black toward decreasing row. -/
def forwardDir (pl : Player) : Int :=
  match pl with
  | WHITE => 1
  | BLACK => -1

/-- The direction list `dirs` built identically in `captureMovesFrom` and
`simpleMovesFrom`: all four diagonals for a king, the two forward diagonals
for a man. -/
def pieceDirs (p : Piece) (pl : Player) : List (Int × Int) :=
  if isKing p = true then [(1, 1), (1, -1), (-1, 1), (-1, -1)]
  else [(forwardDir pl, 1), (forwardDir pl, -1)]

/-- The loop body of `captureMovesFrom` for one direction `d`: the adjacent
cell `(r + d.1, c + d.2)` must hold an enemy of `p` and the landing cell
two steps away must be in bounds and empty. -/
def captureCandidate (b : Board) (p : Piece) (r c : Int) (d : Int × Int) : Option Move :=
  if inBounds (r + d.1) (c + d.2) = false || inBounds (r + 2 * d.1) (c + 2 * d.2) = false then
    none
  else if b (r + 2 * d.1) (c + 2 * d.2) ≠ EMPTY then none
  else if isEnemy p (b (r + d.1) (c + d.2)) = true then
    some ⟨r, c, r + 2 * d.1, c + 2 * d.2, true, r + d.1, c + d.2⟩
  else none

/-- Source `captureMovesFrom(r, c, pl)`: all 2-step jump moves of the piece at
`(r, c)`, one candidate per direction, in direction order. -/
def captureMovesFrom (b : Board) (r c : Int) (pl : Player) : List Move :=
  let p := b r c
  if belongsTo p pl = false then []
  else (pieceDirs p pl).filterMap (captureCandidate b p r c)

/-- The loop body of `simpleMovesFrom` for one direction `d`: the landing
cell one step away must be in bounds and empty. -/
def simpleCandidate (b : Board) (r c : Int) (d : Int × Int) : Option Move :=
  if inBounds (r + d.1) (c + d.2) = false then none
  else if b (r + d.1) (c + d.2) ≠ EMPTY then none
  else some ⟨r, c, r + d.1, c + d.2, false, -1, -1⟩

/-- Source `simpleMovesFrom(r, c, pl)`: all 1-step non-capture moves of the piece
at `(r, c)`, one candidate per direction, in direction order. -/
def simpleMovesFrom (b : Board) (r c : Int) (pl : Player) : List Move :=
  let p := b r c
  if belongsTo p pl = false then []
  else (pieceDirs p pl).filterMap (simpleCandidate b r c)

/-- The row-major scan order `r = 0..7, c = 0..7` of the board loops. -/
def range8 : List Int := [0, 1, 2, 3, 4, 5, 6, 7]

/-- Source `allCaptures(pl)`: every capture move of player `pl`, collected in
row-major board-scan order. -/
def allCaptures (b : Board) (pl : Player) : List Move :=
  range8.flatMap (fun r => range8.flatMap (fun c => captureMovesFrom b r c pl))

/-- Source `allLegalMoves(pl)`: the captures if any exist (mandatory capture),
otherwise all simple moves. -/
def allLegalMoves (b : Board) (pl : Player) : List Move :=
  if allCaptures b pl ≠ [] then allCaptures b pl
  else range8.flatMap (fun r => range8.flatMap (fun c => simpleMovesFrom b r c pl))

/-- Source `countPieces(pl)`: number of board cells holding a piece of player `pl`. -/
def countPieces (b : Board) (pl : Player) : Nat :=
  (range8.flatMap (fun r => (range8.filter (fun c => belongsTo (b r c) pl)).map (fun c => (r, c)))).length

/-- Source `sameMove(a, fr, fc, tr, tc)`: does generated move `a` match the submitted
from/to squares? -/
def sameMove (a : Move) (fr fc tr tc : Int) : Bool :=
  a.fr == fr && a.fc == fc && a.tr == tr && a.tc == tc

/-- Overwrite one board cell (a single `board[r][c] = p` assignment). -/
def setCell (b : Board) (r c : Int) (p : Piece) : Board := fun r' c' =>
  if r' = r ∧ c' = c then p else b r' c'

/-- Source `applyMove(mv)`: copy the origin piece to the destination, clear the
origin, and clear the captured square when the move is a capture — in the
assignment order of the source. -/
def applyMove (b : Board) (mv : Move) : Board :=
  let p := b mv.fr mv.fc
  let b1 := setCell b mv.tr mv.tc p
  let b2 := setCell b1 mv.fr mv.fc EMPTY
  if mv.isCapture = true then setCell b2 mv.cr mv.cc EMPTY else b2

/-- The second `if` of `maybePromote`: a black man on row 0 becomes a black
king. -/
def promoteBlackStep (b : Board) (r c : Int) : Board :=
  if b r c = B_MAN ∧ r = 0 then setCell b r c B_KING else b

/-- Source `maybePromote(r, c)`: a white man on row 7 becomes a white king, then a
black man on row 0 becomes a black king — the two source `if`s in order. -/
def maybePromote (b : Board) (r c : Int) : Board :=
  promoteBlackStep (if b r c = W_MAN ∧ r = 7 then setCell b r c W_KING else b) r c

/-- Source `parseSquare(token)`: the first alphabetic character (lower-cased) is
the file `a`–`h`, the first digit is the rank `1`–`8`; tokens shorter than
two characters or without a valid file/rank are rejected. -/
def parseSquare (token : String) : Option (Int × Int) :=
  if token.length < 2 then none
  else
    let file : Char := ((token.toList.find? (fun ch => ch.isAlpha)).map Char.toLower).getD (Char.ofNat 0)
    let rank : Char := (token.toList.find? (fun ch => ch.isDigit)).getD (Char.ofNat 0)
    if file < 'a' ∨ 'h' < file then none
    else if rank < '1' ∨ '8' < rank then none
    else
      let c : Int := (file.toNat : Int) - ('a'.toNat : Int)
      let r : Int := (rank.toNat : Int) - ('1'.toNat : Int)
      if inBounds r c = true then some (r, c) else none

/-- Source `(turn == WHITE) ? BLACK : WHITE` — the other player. -/
def opponent (pl : Player) : Player :=
  match pl with
  | WHITE => BLACK
  | BLACK => WHITE

/-- The rejection reasons of the engine, one per `continue`-with-message
path of the input handling in `main`. -/
inductive RejectionReason where
  | BadFormat
  | NotDarkSquare
  | NotOwnPiece
  | DestinationOccupied
  | NotInLegalSet
  | BadSquare
  | NotAForcedLanding
deriving DecidableEq, Repr

/-- The states of the game loop of `main` at its two input points plus the
terminal state: `awaitingInitialMove` is the top of the outer `while` with
the win checks already passed, `awaitingChainContinuation` is the top of
the inner multi-capture `while` with current piece position `(curR, curC)`,
and `gameOver` records the final board and the winner. -/
inductive GameState where
  | awaitingInitialMove (b : Board) (turn : Player)
  | awaitingChainContinuation (b : Board) (turn : Player) (curR curC : Int)
  | gameOver (b : Board) (winner : Player)

/-- The win checks at the top of the outer `while` loop: a player with no
pieces loses, then a player whose legal-move list is empty loses; otherwise
the engine prompts the active player for a move. -/
def stepTurnStart (b : Board) (turn : Player) : GameState :=
  if countPieces b WHITE = 0 then .gameOver b BLACK
  else if countPieces b BLACK = 0 then .gameOver b WHITE
  else if allLegalMoves b turn = [] then .gameOver b (opponent turn)
  else .awaitingInitialMove b turn

/-- End of a turn in `main`: promote at the final square of the piece, flip the
turn, and re-run the win checks of the next loop iteration. -/
def finishTurn (b : Board) (turn : Player) (curR curC : Int) : GameState :=
  stepTurnStart (maybePromote b curR curC) (opponent turn)

/-- The code after `applyMove(mv)` in `main`: if the move was a capture and
a further capture from the landing square exists, enter the multi-capture
loop; otherwise promote at the landing square and end the turn. -/
def afterApply (b : Board) (turn : Player) (mv : Move) : GameState :=
  if mv.isCapture = true ∧ captureMovesFrom (applyMove b mv) mv.tr mv.tc turn ≠ [] then
    .awaitingChainContinuation (applyMove b mv) turn mv.tr mv.tc
  else finishTurn (applyMove b mv) turn mv.tr mv.tc

/-- One iteration of the outer input handling of `main` on tokens
`(t1, t2)`: parse both squares, check the destination is dark, the origin
holds a piece of the active player, the destination is empty, and the move is
in the legal list; every failed check leaves the state unchanged and
reports a reason. -/
def stepMove (b : Board) (turn : Player) (t1 t2 : String) :
    GameState × Option RejectionReason :=
  match parseSquare t1, parseSquare t2 with
  | some (fr, fc), some (tr, tc) =>
    if isDarkSquare tr tc = false then (.awaitingInitialMove b turn, some .NotDarkSquare)
    else if belongsTo (b fr fc) turn = false then (.awaitingInitialMove b turn, some .NotOwnPiece)
    else if b tr tc ≠ EMPTY then (.awaitingInitialMove b turn, some .DestinationOccupied)
    else
      match (allLegalMoves b turn).find? (fun m => sameMove m fr fc tr tc) with
      | some mv => (afterApply b turn mv, none)
      | none => (.awaitingInitialMove b turn, some .NotInLegalSet)
  | _, _ => (.awaitingInitialMove b turn, some .BadFormat)

/-- One iteration of the inner multi-capture `while` of `main` on token
`t`: the submitted square must be a landing square of a capture from the
current position; on acceptance the jump is applied and the loop continues
from the new position, or the turn ends when no further capture exists. -/
def stepChain (b : Board) (turn : Player) (curR curC : Int) (t : String) :
    GameState × Option RejectionReason :=
  match parseSquare t with
  | none => (.awaitingChainContinuation b turn curR curC, some .BadSquare)
  | some (nr, nc) =>
    match (captureMovesFrom b curR curC turn).find? (fun m => m.tr == nr && m.tc == nc) with
    | none => (.awaitingChainContinuation b turn curR curC, some .NotAForcedLanding)
    | some mv =>
      if captureMovesFrom (applyMove b mv) mv.tr mv.tc turn ≠ [] then
        (.awaitingChainContinuation (applyMove b mv) turn mv.tr mv.tc, none)
      else (finishTurn (applyMove b mv) turn mv.tr mv.tc, none)

/-- Player input: a from/to pair of tokens at turn start, or a single
destination token during a multi-capture chain. -/
inductive Input where
  | movePair (t1 t2 : String)
  | chainSq (t : String)

/-- The whole game loop as a step function on `GameState`: the two input
states dispatch to their handlers, and `gameOver` accepts nothing (after
the `break` the program reads no further input). -/
def step : GameState → Input → GameState × Option RejectionReason
  | .awaitingInitialMove b turn, .movePair t1 t2 => stepMove b turn t1 t2
  | .awaitingChainContinuation b turn r c, .chainSq t => stepChain b turn r c t
  | s, _ => (s, none)

/-- Test board: a white man at (2,1) facing a black man at (3,2) with (4,3)
empty — the capture scenario from the testable properties of the spec. -/
def testBoard1 : Board := fun r c =>
  if r = 2 ∧ c = 1 then W_MAN else if r = 3 ∧ c = 2 then B_MAN else EMPTY

/-- Test board: the position after the white man of `testBoard1` has jumped
to (4,3), with a second black man at (5,4) so a further capture to (6,5)
exists — a mid-chain position. -/
def testBoardMid : Board := fun r c =>
  if r = 4 ∧ c = 3 then W_MAN else if r = 5 ∧ c = 4 then B_MAN else EMPTY

/-- Test board: a lone white man, black has no pieces. -/
def testBoardWin : Board := fun r c =>
  if r = 2 ∧ c = 1 then W_MAN else EMPTY

/-- The dark-square invariant: every occupied in-bounds cell is dark. -/
def darkOnly (b : Board) : Prop :=
  ∀ r c, inBounds r c = true → b r c ≠ EMPTY → isDarkSquare r c = true

/-- Boards reachable from the initial position by engine-generated moves:
the initial board, application of a move from the legal list, application
of a chain continuation generated by `captureMovesFrom` at an in-bounds
current position, and the end-of-turn promotion at an in-bounds square. -/
inductive ReachableBoard : Board → Prop
  | init : ReachableBoard initBoard
  | legal (b : Board) (pl : Player) (mv : Move) :
      ReachableBoard b → mv ∈ allLegalMoves b pl → ReachableBoard (applyMove b mv)
  | chain (b : Board) (pl : Player) (r c : Int) (mv : Move) :
      ReachableBoard b → inBounds r c = true → mv ∈ captureMovesFrom b r c pl →
      ReachableBoard (applyMove b mv)
  | promote (b : Board) (r c : Int) :
      ReachableBoard b → inBounds r c = true → ReachableBoard (maybePromote b r c)

example : countPieces initBoard WHITE = 12 := by decide
example : allCaptures initBoard WHITE = [] := by decide
example : (allLegalMoves initBoard WHITE).length = 7 := by decide
example : parseSquare "b6" = some (5, 1) := by decide
example : parseSquare "B6," = some (5, 1) := by decide
example : parseSquare "zz" = none := by decide
example : parseSquare "x" = none := by decide

/-! ## Helper lemmas -/

lemma inBounds_iff (r c : Int) : inBounds r c = true ↔ 0 ≤ r ∧ r < 8 ∧ 0 ≤ c ∧ c < 8 := by
  simp [inBounds]

lemma isDarkSquare_iff (r c : Int) : isDarkSquare r c = true ↔ (r + c) % 2 = 1 := by
  simp [isDarkSquare]

lemma mem_range8 (r : Int) : r ∈ range8 ↔ 0 ≤ r ∧ r < 8 := by
  simp [range8]
  omega

lemma belongsTo_ne_empty (p : Piece) (pl : Player) (h : belongsTo p pl = true) : p ≠ EMPTY := by
  cases p <;> cases pl <;> simp_all [belongsTo]

lemma pieceDirs_mem (p : Piece) (pl : Player) (d : Int × Int) (hd : d ∈ pieceDirs p pl) :
    (d.1 = 1 ∨ d.1 = -1) ∧ (d.2 = 1 ∨ d.2 = -1) := by
  unfold pieceDirs at hd
  split at hd
  · simp only [List.mem_cons, List.not_mem_nil, or_false] at hd
    rcases hd with rfl | rfl | rfl | rfl <;> decide
  · cases pl <;> simp only [forwardDir, List.mem_cons, List.not_mem_nil, or_false] at hd <;>
      rcases hd with rfl | rfl <;> decide

lemma captureCandidate_some (b : Board) (p : Piece) (r c : Int) (d : Int × Int) (m : Move) :
    captureCandidate b p r c d = some m ↔
      inBounds (r + d.1) (c + d.2) = true ∧
      inBounds (r + 2 * d.1) (c + 2 * d.2) = true ∧
      b (r + 2 * d.1) (c + 2 * d.2) = EMPTY ∧
      isEnemy p (b (r + d.1) (c + d.2)) = true ∧
      m = ⟨r, c, r + 2 * d.1, c + 2 * d.2, true, r + d.1, c + d.2⟩ := by
  unfold captureCandidate
  constructor
  · intro hf
    split at hf
    · simp at hf
    · split at hf
      · simp at hf
      · split at hf
        · rename_i hnb hne hen
          simp only [Bool.or_eq_true, Bool.not_eq_false] at hnb
          push_neg at hnb
          rw [Option.some.injEq] at hf
          refine ⟨?_, ?_, ?_, hen, hf.symm⟩
          · have := hnb.1; revert this; cases inBounds (r + d.1) (c + d.2) <;> simp
          · have := hnb.2; revert this; cases inBounds (r + 2 * d.1) (c + 2 * d.2) <;> simp
          · exact not_not.mp hne
        · simp at hf
  · rintro ⟨h1, h2, hE, hen, rfl⟩
    simp [h1, h2, hE, hen]

lemma captureMovesFrom_mem (b : Board) (r c : Int) (pl : Player) (m : Move) :
    m ∈ captureMovesFrom b r c pl ↔
      belongsTo (b r c) pl = true ∧ ∃ d ∈ pieceDirs (b r c) pl,
        inBounds (r + d.1) (c + d.2) = true ∧
        inBounds (r + 2 * d.1) (c + 2 * d.2) = true ∧
        b (r + 2 * d.1) (c + 2 * d.2) = EMPTY ∧
        isEnemy (b r c) (b (r + d.1) (c + d.2)) = true ∧
        m = ⟨r, c, r + 2 * d.1, c + 2 * d.2, true, r + d.1, c + d.2⟩ := by
  unfold captureMovesFrom
  cases hb : belongsTo (b r c) pl with
  | false => simp [hb]
  | true =>
    simp only [hb, Bool.true_eq_false, if_false, List.mem_filterMap, captureCandidate_some]
    constructor
    · rintro ⟨d, hd, hs⟩
      exact ⟨trivial, d, hd, hs⟩
    · rintro ⟨-, d, hd, hs⟩
      exact ⟨d, hd, hs⟩

lemma simpleCandidate_some (b : Board) (r c : Int) (d : Int × Int) (m : Move) :
    simpleCandidate b r c d = some m ↔
      inBounds (r + d.1) (c + d.2) = true ∧
      b (r + d.1) (c + d.2) = EMPTY ∧
      m = ⟨r, c, r + d.1, c + d.2, false, -1, -1⟩ := by
  unfold simpleCandidate
  constructor
  · intro hf
    split at hf
    · simp at hf
    · split at hf
      · simp at hf
      · rename_i hnb hne
        rw [Option.some.injEq] at hf
        refine ⟨?_, not_not.mp hne, hf.symm⟩
        revert hnb; cases inBounds (r + d.1) (c + d.2) <;> simp
  · rintro ⟨h1, hE, rfl⟩
    simp [h1, hE]

lemma simpleMovesFrom_mem (b : Board) (r c : Int) (pl : Player) (m : Move) :
    m ∈ simpleMovesFrom b r c pl ↔
      belongsTo (b r c) pl = true ∧ ∃ d ∈ pieceDirs (b r c) pl,
        inBounds (r + d.1) (c + d.2) = true ∧
        b (r + d.1) (c + d.2) = EMPTY ∧
        m = ⟨r, c, r + d.1, c + d.2, false, -1, -1⟩ := by
  unfold simpleMovesFrom
  cases hb : belongsTo (b r c) pl with
  | false => simp [hb]
  | true =>
    simp only [hb, Bool.true_eq_false, if_false, List.mem_filterMap, simpleCandidate_some]
    constructor
    · rintro ⟨d, hd, hs⟩
      exact ⟨trivial, d, hd, hs⟩
    · rintro ⟨-, d, hd, hs⟩
      exact ⟨d, hd, hs⟩

lemma allCaptures_mem (b : Board) (pl : Player) (m : Move) :
    m ∈ allCaptures b pl ↔ ∃ r c, inBounds r c = true ∧ m ∈ captureMovesFrom b r c pl := by
  unfold allCaptures
  simp only [List.mem_flatMap, mem_range8, inBounds_iff]
  constructor
  · rintro ⟨r, hr, c, hc, hm⟩
    exact ⟨r, c, ⟨hr.1, hr.2, hc.1, hc.2⟩, hm⟩
  · rintro ⟨r, c, ⟨h1, h2, h3, h4⟩, hm⟩
    exact ⟨r, ⟨h1, h2⟩, c, ⟨h3, h4⟩, hm⟩

lemma captureMovesFrom_isCapture (b : Board) (r c : Int) (pl : Player) (m : Move)
    (hm : m ∈ captureMovesFrom b r c pl) : m.isCapture = true := by
  rw [captureMovesFrom_mem] at hm
  obtain ⟨-, d, -, -, -, -, -, rfl⟩ := hm
  rfl

lemma applyMove_eval (b : Board) (mv : Move) (r c : Int) :
    applyMove b mv r c =
      if mv.isCapture = true ∧ r = mv.cr ∧ c = mv.cc then EMPTY
      else if r = mv.fr ∧ c = mv.fc then EMPTY
      else if r = mv.tr ∧ c = mv.tc then b mv.fr mv.fc
      else b r c := by
  unfold applyMove setCell
  cases h : mv.isCapture <;> simp [h]

/-! ## Claims -/

/-- Claim C10: If the cell at `(r, c)` is empty or holds a piece not belonging
to the player, both `captureMovesFrom` and `simpleMovesFrom` return the
empty list (the generators are total, also on light squares). -/
theorem movesFrom_nil_of_not_owned (b : Board) (r c : Int) (pl : Player)
    (h : belongsTo (b r c) pl = false) :
    captureMovesFrom b r c pl = [] ∧ simpleMovesFrom b r c pl = [] := by
  unfold captureMovesFrom simpleMovesFrom
  simp [h]

theorem movesFrom_nil_of_not_owned_witness :
    belongsTo (initBoard 0 0) WHITE = false ∧
    captureMovesFrom initBoard 0 0 WHITE = [] ∧ simpleMovesFrom initBoard 0 0 WHITE = [] :=
  ⟨by decide, movesFrom_nil_of_not_owned initBoard 0 0 WHITE (by decide)⟩

/-- Claim C6: `applyMove` copies the old origin value to the destination,
clears the origin, clears the captured square when the move is a capture,
and leaves every other cell unchanged.  The distinctness hypotheses are the
data-model invariant of generated moves (origin, destination and captured
square are three different cells). -/
theorem applyMove_frame (b : Board) (mv : Move)
    (hod : ¬(mv.tr = mv.fr ∧ mv.tc = mv.fc))
    (hcd : mv.isCapture = true → ¬(mv.tr = mv.cr ∧ mv.tc = mv.cc)) :
    applyMove b mv mv.tr mv.tc = b mv.fr mv.fc ∧
    applyMove b mv mv.fr mv.fc = EMPTY ∧
    (mv.isCapture = true → applyMove b mv mv.cr mv.cc = EMPTY) ∧
    (∀ r c, ¬(r = mv.fr ∧ c = mv.fc) → ¬(r = mv.tr ∧ c = mv.tc) →
      (mv.isCapture = true → ¬(r = mv.cr ∧ c = mv.cc)) →
      applyMove b mv r c = b r c) := by
  refine ⟨?_, ?_, ?_, ?_⟩
  · rw [applyMove_eval,
      if_neg (fun hx => hcd hx.1 ⟨hx.2.1, hx.2.2⟩),
      if_neg hod,
      if_pos (show mv.tr = mv.tr ∧ mv.tc = mv.tc from ⟨rfl, rfl⟩)]
  · rw [applyMove_eval]
    by_cases hc1 : mv.isCapture = true ∧ mv.fr = mv.cr ∧ mv.fc = mv.cc
    · rw [if_pos hc1]
    · rw [if_neg hc1, if_pos (show mv.fr = mv.fr ∧ mv.fc = mv.fc from ⟨rfl, rfl⟩)]
  · intro h
    rw [applyMove_eval, if_pos ⟨h, rfl, rfl⟩]
  · intro r c h1 h2 h3
    rw [applyMove_eval,
      if_neg (fun hx => h3 hx.1 ⟨hx.2.1, hx.2.2⟩),
      if_neg h1,
      if_neg h2]

theorem applyMove_frame_witness :
    (¬((4 : Int) = 2 ∧ (3 : Int) = 1)) ∧
    applyMove testBoard1 ⟨2, 1, 4, 3, true, 3, 2⟩ 4 3 = testBoard1 2 1 ∧
    applyMove testBoard1 ⟨2, 1, 4, 3, true, 3, 2⟩ 2 1 = EMPTY ∧
    applyMove testBoard1 ⟨2, 1, 4, 3, true, 3, 2⟩ 3 2 = EMPTY ∧
    applyMove testBoard1 ⟨2, 1, 4, 3, true, 3, 2⟩ 0 1 = testBoard1 0 1 := by
  have h := applyMove_frame testBoard1 ⟨2, 1, 4, 3, true, 3, 2⟩ (by decide) (by decide)
  exact ⟨by decide, h.1, h.2.1, h.2.2.1 rfl, h.2.2.2 0 1 (by decide) (by decide) (by decide)⟩

/-- Claim C5: Every move produced by `captureMovesFrom` is a capture whose
captured square lies strictly between origin and destination on the same
diagonal, holds an enemy of the moving piece before the move, and is empty
after `applyMove`. -/
theorem capture_between_enemy_cleared (b : Board) (r c : Int) (pl : Player) (m : Move)
    (hm : m ∈ captureMovesFrom b r c pl) :
    m.isCapture = true ∧
    (m.tr - m.fr = 2 ∨ m.tr - m.fr = -2) ∧
    (m.tc - m.fc = 2 ∨ m.tc - m.fc = -2) ∧
    2 * m.cr = m.fr + m.tr ∧ 2 * m.cc = m.fc + m.tc ∧
    isEnemy (b m.fr m.fc) (b m.cr m.cc) = true ∧
    applyMove b m m.cr m.cc = EMPTY := by
  rw [captureMovesFrom_mem] at hm
  obtain ⟨hb, d, hd, h1, h2, hE, hen, rfl⟩ := hm
  obtain ⟨hd1, hd2⟩ := pieceDirs_mem _ _ _ hd
  refine ⟨rfl, ?_, ?_, ?_, ?_, hen, ?_⟩
  · simp only; omega
  · simp only; omega
  · simp only; ring
  · simp only; ring
  · rw [applyMove_eval, if_pos ⟨rfl, rfl, rfl⟩]

theorem capture_between_enemy_cleared_witness :
    (⟨2, 1, 4, 3, true, 3, 2⟩ : Move) ∈ captureMovesFrom testBoard1 2 1 WHITE ∧
    ((2 : Int) * 3 = 2 + 4 ∧ isEnemy (testBoard1 2 1) (testBoard1 3 2) = true ∧
     applyMove testBoard1 ⟨2, 1, 4, 3, true, 3, 2⟩ 3 2 = EMPTY) := by
  have h : (⟨2, 1, 4, 3, true, 3, 2⟩ : Move) ∈ captureMovesFrom testBoard1 2 1 WHITE := by decide
  have := capture_between_enemy_cleared testBoard1 2 1 WHITE _ h
  exact ⟨h, this.2.2.2.1, this.2.2.2.2.2⟩

/-- Claim C1: If any capture exists, `allLegalMoves` is exactly `allCaptures`
(and every legal move is a capture); otherwise it is the union of
`simpleMovesFrom` over the whole board, which only contributes moves from
the own pieces of the player. -/
theorem allLegalMoves_mandatory_capture (b : Board) (pl : Player) :
    (allCaptures b pl ≠ [] →
      allLegalMoves b pl = allCaptures b pl ∧
      ∀ m ∈ allLegalMoves b pl, m.isCapture = true) ∧
    (allCaptures b pl = [] →
      ∀ m, m ∈ allLegalMoves b pl ↔
        ∃ r c, inBounds r c = true ∧ m ∈ simpleMovesFrom b r c pl) := by
  constructor
  · intro hne
    have he : allLegalMoves b pl = allCaptures b pl := by
      unfold allLegalMoves
      exact if_pos hne
    refine ⟨he, ?_⟩
    intro m hm
    rw [he, allCaptures_mem] at hm
    obtain ⟨r, c, -, hm⟩ := hm
    exact captureMovesFrom_isCapture b r c pl m hm
  · intro hemp m
    unfold allLegalMoves
    simp only [hemp, ne_eq, not_true_eq_false, if_false, List.mem_flatMap, mem_range8,
      inBounds_iff]
    constructor
    · rintro ⟨r, hr, c, hc, hm⟩
      exact ⟨r, c, ⟨hr.1, hr.2, hc.1, hc.2⟩, hm⟩
    · rintro ⟨r, c, ⟨h1, h2, h3, h4⟩, hm⟩
      exact ⟨r, ⟨h1, h2⟩, c, ⟨h3, h4⟩, hm⟩

theorem allLegalMoves_mandatory_capture_witness :
    allCaptures initBoard WHITE = [] ∧
    ((⟨2, 1, 3, 0, false, -1, -1⟩ : Move) ∈ allLegalMoves initBoard WHITE ↔
      ∃ r c, inBounds r c = true ∧
        (⟨2, 1, 3, 0, false, -1, -1⟩ : Move) ∈ simpleMovesFrom initBoard r c WHITE) :=
  ⟨by decide, (allLegalMoves_mandatory_capture initBoard WHITE).2 (by decide) _⟩

/-- Claim C4: `captureMovesFrom` emits a capture in a diagonal direction iff
the direction belongs to the direction set of the piece (both forward diagonals
for a man — forward is increasing row for WHITE/Player 1 and decreasing row
for BLACK/Player 2 — all four diagonals for a king), the adjacent cell
holds an enemy piece, and the cell two steps along the same direction is in
bounds and empty. -/
theorem captureMovesFrom_direction_spec (b : Board) (r c : Int) (pl : Player) (m : Move)
    (hrc : inBounds r c = true) (hb : belongsTo (b r c) pl = true) :
    m ∈ captureMovesFrom b r c pl ↔
      ∃ dr dc : Int,
        (dc = 1 ∨ dc = -1) ∧
        (if isKing (b r c) = true then dr = 1 ∨ dr = -1
         else dr = (if pl = WHITE then 1 else -1)) ∧
        isEnemy (b r c) (b (r + dr) (c + dc)) = true ∧
        inBounds (r + 2 * dr) (c + 2 * dc) = true ∧
        b (r + 2 * dr) (c + 2 * dc) = EMPTY ∧
        m = ⟨r, c, r + 2 * dr, c + 2 * dc, true, r + dr, c + dc⟩ := by
  rw [captureMovesFrom_mem]
  constructor
  · rintro ⟨-, d, hd, h1, h2, hE, hen, rfl⟩
    refine ⟨d.1, d.2, ?_, ?_, hen, h2, hE, rfl⟩
    · exact (pieceDirs_mem _ _ _ hd).2
    · unfold pieceDirs at hd
      split at hd
      · rename_i hk
        rw [if_pos hk]
        simp only [List.mem_cons, List.not_mem_nil, or_false] at hd
        rcases hd with rfl | rfl | rfl | rfl <;> decide
      · rename_i hk
        rw [if_neg hk]
        cases pl <;> simp only [forwardDir, List.mem_cons, List.not_mem_nil, or_false] at hd <;>
          rcases hd with rfl | rfl <;> simp [forwardDir]
  · rintro ⟨dr, dc, hdc, hdr, hen, h2, hE, rfl⟩
    refine ⟨hb, (dr, dc), ?_, ?_, h2, hE, hen, rfl⟩
    · unfold pieceDirs
      split at hdr
      · rename_i hk
        rw [if_pos hk]
        rcases hdr with rfl | rfl <;> rcases hdc with rfl | rfl <;> simp
      · rename_i hk
        rw [if_neg hk]
        subst hdr
        cases pl <;> rcases hdc with rfl | rfl <;> simp [forwardDir]
    · rw [inBounds_iff] at hrc ⊢
      rw [inBounds_iff] at h2
      rcases hdc with rfl | rfl <;>
        rcases (show dr = 1 ∨ dr = -1 by
          revert hdr; split <;> intro hdr
          · exact hdr
          · subst hdr; cases pl <;> simp) with rfl | rfl <;> omega

theorem captureMovesFrom_direction_spec_witness :
    inBounds 2 1 = true ∧ belongsTo (testBoard1 2 1) WHITE = true ∧
    ((⟨2, 1, 4, 3, true, 3, 2⟩ : Move) ∈ captureMovesFrom testBoard1 2 1 WHITE ↔
      ∃ dr dc : Int,
        (dc = 1 ∨ dc = -1) ∧
        (if isKing (testBoard1 2 1) = true then dr = 1 ∨ dr = -1
         else dr = (if WHITE = WHITE then 1 else -1)) ∧
        isEnemy (testBoard1 2 1) (testBoard1 (2 + dr) (1 + dc)) = true ∧
        inBounds (2 + 2 * dr) (1 + 2 * dc) = true ∧
        testBoard1 (2 + 2 * dr) (1 + 2 * dc) = EMPTY ∧
        (⟨2, 1, 4, 3, true, 3, 2⟩ : Move) =
          ⟨2, 1, 2 + 2 * dr, 1 + 2 * dc, true, 2 + dr, 1 + dc⟩) :=
  ⟨by decide, by decide,
    captureMovesFrom_direction_spec testBoard1 2 1 WHITE _ (by decide) (by decide)⟩

/-- Claim C7: At turn start, if the opponent of the active player has no pieces
the active player wins; if the active player has pieces but no legal moves
the opponent wins; and from `gameOver` no input changes the state (no
further moves are accepted). -/
theorem turn_start_outcome (b : Board) (turn : Player)
    (hself : countPieces b turn ≠ 0) :
    (countPieces b (opponent turn) = 0 → stepTurnStart b turn = .gameOver b turn) ∧
    (countPieces b (opponent turn) ≠ 0 → allLegalMoves b turn = [] →
      stepTurnStart b turn = .gameOver b (opponent turn)) ∧
    (∀ b2 w i, step (.gameOver b2 w) i = (.gameOver b2 w, none)) := by
  refine ⟨?_, ?_, ?_⟩
  · intro h0
    cases turn with
    | WHITE =>
      simp only [opponent] at h0
      unfold stepTurnStart
      rw [if_neg hself, if_pos h0]
    | BLACK =>
      simp only [opponent] at h0
      unfold stepTurnStart
      rw [if_pos h0]
  · intro hop hleg
    cases turn with
    | WHITE =>
      simp only [opponent] at hop ⊢
      unfold stepTurnStart
      rw [if_neg hself, if_neg hop, if_pos hleg]
      rfl
    | BLACK =>
      simp only [opponent] at hop ⊢
      unfold stepTurnStart
      rw [if_neg hop, if_neg hself, if_pos hleg]
      rfl
  · intro b2 w i
    cases i <;> rfl

theorem turn_start_outcome_witness :
    countPieces testBoardWin WHITE ≠ 0 ∧
    countPieces testBoardWin (opponent WHITE) = 0 ∧
    stepTurnStart testBoardWin WHITE = .gameOver testBoardWin WHITE :=
  ⟨by decide, by decide,
    (turn_start_outcome testBoardWin WHITE (by decide)).1 (by decide)⟩

/-- Claim C9: Every rejected submission, at either input point, leaves the
state (board, active player, chain position) unchanged and the engine is
still awaiting input at the same point. -/
theorem rejection_preserves_state (b : Board) (turn : Player) (curR curC : Int)
    (t1 t2 t : String) (rej : RejectionReason) :
    ((stepMove b turn t1 t2).2 = some rej →
      (stepMove b turn t1 t2).1 = .awaitingInitialMove b turn) ∧
    ((stepChain b turn curR curC t).2 = some rej →
      (stepChain b turn curR curC t).1 = .awaitingChainContinuation b turn curR curC) := by
  constructor
  · unfold stepMove
    split
    all_goals try (intro h; rfl)
    split_ifs
    all_goals try (intro h; rfl)
    split
    · intro h; simp at h
    · intro h; rfl
  · unfold stepChain
    split
    · intro h; rfl
    · split
      · intro h; rfl
      · split
        · intro h; simp at h
        · intro h; simp at h

theorem rejection_preserves_state_witness :
    (stepMove initBoard WHITE "x" "z9").2 = some .BadFormat ∧
    (stepMove initBoard WHITE "x" "z9").1 = .awaitingInitialMove initBoard WHITE :=
  ⟨by decide,
    (rejection_preserves_state initBoard WHITE 0 0 "x" "z9" "" .BadFormat).1 (by decide)⟩

lemma captureMovesFrom_origin (b : Board) (r c : Int) (pl : Player) (m : Move)
    (hm : m ∈ captureMovesFrom b r c pl) : m.fr = r ∧ m.fc = c := by
  rw [captureMovesFrom_mem] at hm
  obtain ⟨-, d, -, -, -, -, -, rfl⟩ := hm
  exact ⟨rfl, rfl⟩

lemma stepTurnStart_ne_chain (b : Board) (pl : Player) (b1 : Board) (tn : Player)
    (r c : Int) : stepTurnStart b pl ≠ .awaitingChainContinuation b1 tn r c := by
  unfold stepTurnStart
  split_ifs <;> simp

/-- Claim C2: The chain machine: `awaitingChainContinuation` is only ever
entered with the same player to move and a further capture available from
the landing square; a parsed destination that is not a forced landing is
rejected with `NotAForcedLanding` and changes nothing; an accepted
submission applies a capture of the current piece, keeps the same player
while further captures from the new landing square exist, and only flips
the turn once none remain. -/
theorem chain_capture_forced (b : Board) (turn : Player) (curR curC : Int)
    (t t1 t2 : String) (nr nc : Int) (b1 : Board) (tn : Player) (r c : Int) :
    ((stepMove b turn t1 t2).1 = .awaitingChainContinuation b1 tn r c →
      tn = turn ∧ captureMovesFrom b1 r c turn ≠ []) ∧
    (parseSquare t = some (nr, nc) →
      (∀ m ∈ captureMovesFrom b curR curC turn, ¬(m.tr = nr ∧ m.tc = nc)) →
      stepChain b turn curR curC t =
        (.awaitingChainContinuation b turn curR curC, some .NotAForcedLanding)) ∧
    ((stepChain b turn curR curC t).2 = none →
      ∃ mv ∈ captureMovesFrom b curR curC turn,
        mv.fr = curR ∧ mv.fc = curC ∧ mv.isCapture = true ∧
        ((captureMovesFrom (applyMove b mv) mv.tr mv.tc turn ≠ [] ∧
          (stepChain b turn curR curC t).1 =
            .awaitingChainContinuation (applyMove b mv) turn mv.tr mv.tc) ∨
         (captureMovesFrom (applyMove b mv) mv.tr mv.tc turn = [] ∧
          (stepChain b turn curR curC t).1 =
            stepTurnStart (maybePromote (applyMove b mv) mv.tr mv.tc) (opponent turn)))) := by
  refine ⟨?_, ?_, ?_⟩
  · unfold stepMove
    rcases hp1 : parseSquare t1 with - | ⟨fr, fc⟩ <;>
      rcases hq1 : parseSquare t2 with - | ⟨tr, tc⟩ <;>
      simp only [hp1, hq1]
    · intro h; simp at h
    · intro h; simp at h
    · intro h; simp at h
    · intro h
      split_ifs at h
      rcases hfind : (allLegalMoves b turn).find? (fun m => sameMove m fr fc tr tc)
        with - | mv
      · rw [hfind] at h
        simp at h
      · rw [hfind] at h
        have h2 : afterApply b turn mv = GameState.awaitingChainContinuation b1 tn r c := h
        unfold afterApply at h2
        split at h2
        · rename_i hcond
          injection h2 with e1 e2 e3 e4
          subst e1; subst e3; subst e4; subst e2
          exact ⟨rfl, hcond.2⟩
        · unfold finishTurn at h2
          exact absurd h2 (stepTurnStart_ne_chain _ _ _ _ _ _)
  · intro hp hnl
    have hf : (captureMovesFrom b curR curC turn).find?
        (fun m => m.tr == nr && m.tc == nc) = none := by
      rw [List.find?_eq_none]
      intro m hm
      have := hnl m hm
      simp only [Bool.and_eq_true, beq_iff_eq]
      tauto
    unfold stepChain
    simp only [hp, hf]
  · intro hacc
    unfold stepChain at hacc ⊢
    rcases hp2 : parseSquare t with - | ⟨nr2, nc2⟩
    · rw [hp2] at hacc
      simp at hacc
    · simp only [hp2] at hacc ⊢
      rcases hf2 : (captureMovesFrom b curR curC turn).find?
          (fun m => m.tr == nr2 && m.tc == nc2) with - | mv
      · simp only [hf2] at hacc
        simp at hacc
      · simp only [hf2] at hacc ⊢
        have hmem := List.mem_of_find?_eq_some hf2
        have horig := captureMovesFrom_origin _ _ _ _ _ hmem
        have hcap := captureMovesFrom_isCapture _ _ _ _ _ hmem
        refine ⟨mv, hmem, horig.1, horig.2, hcap, ?_⟩
        by_cases hnx : captureMovesFrom (applyMove b mv) mv.tr mv.tc turn ≠ []
        · left
          rw [if_pos hnx]
          exact ⟨hnx, rfl⟩
        · right
          rw [if_neg hnx]
          refine ⟨not_not.mp hnx, ?_⟩
          unfold finishTurn
          rfl

theorem chain_capture_forced_witness :
    parseSquare "a1" = some (0, 0) ∧
    (∀ m ∈ captureMovesFrom testBoardMid 4 3 WHITE, ¬(m.tr = 0 ∧ m.tc = 0)) ∧
    stepChain testBoardMid WHITE 4 3 "a1" =
      (.awaitingChainContinuation testBoardMid WHITE 4 3, some .NotAForcedLanding) :=
  ⟨by decide, by decide,
    (chain_capture_forced testBoardMid WHITE 4 3 "a1" "" "" 0 0 testBoardMid WHITE 0 0).2.1
      (by decide) (by decide)⟩

/-- Claim C3: `maybePromote` replaces the cell at `(r, c)` by the king of
the owner exactly for a white man on row 7 or a black man on row 0, and
otherwise leaves the board unchanged; within a turn the engine applies it
exactly once, at the final resting square when the turn ends — an accepted
mid-chain jump (with a further capture available) changes the board by
`applyMove` alone. -/
theorem maybePromote_final_square_only (b : Board) (r c : Int) (turn : Player)
    (curR curC nr nc : Int) (t : String) (mv mv2 : Move) :
    ((b r c = W_MAN ∧ r = 7 → maybePromote b r c = setCell b r c W_KING) ∧
     (b r c = B_MAN ∧ r = 0 → maybePromote b r c = setCell b r c B_KING) ∧
     (¬(b r c = W_MAN ∧ r = 7) → ¬(b r c = B_MAN ∧ r = 0) → maybePromote b r c = b)) ∧
    (parseSquare t = some (nr, nc) →
      (captureMovesFrom b curR curC turn).find? (fun m => m.tr == nr && m.tc == nc) =
        some mv →
      ((captureMovesFrom (applyMove b mv) mv.tr mv.tc turn ≠ [] →
        stepChain b turn curR curC t =
          (.awaitingChainContinuation (applyMove b mv) turn mv.tr mv.tc, none)) ∧
       (captureMovesFrom (applyMove b mv) mv.tr mv.tc turn = [] →
        stepChain b turn curR curC t =
          (stepTurnStart (maybePromote (applyMove b mv) mv.tr mv.tc) (opponent turn),
           none)))) ∧
    ((mv2.isCapture = true ∧ captureMovesFrom (applyMove b mv2) mv2.tr mv2.tc turn ≠ [] →
        afterApply b turn mv2 =
          .awaitingChainContinuation (applyMove b mv2) turn mv2.tr mv2.tc) ∧
     (¬(mv2.isCapture = true ∧ captureMovesFrom (applyMove b mv2) mv2.tr mv2.tc turn ≠ []) →
        afterApply b turn mv2 =
          stepTurnStart (maybePromote (applyMove b mv2) mv2.tr mv2.tc) (opponent turn))) := by
  refine ⟨⟨?_, ?_, ?_⟩, ?_, ?_, ?_⟩
  · intro h
    unfold maybePromote promoteBlackStep
    rw [if_pos h, if_neg (show ¬(setCell b r c W_KING r c = B_MAN ∧ r = 0) by
      simp [setCell])]
  · intro h
    unfold maybePromote promoteBlackStep
    rw [if_neg (show ¬(b r c = W_MAN ∧ r = 7) by
      rintro ⟨hx, -⟩
      rw [h.1] at hx
      exact absurd hx (by decide))]
    rw [if_pos h]
  · intro h1 h2
    unfold maybePromote promoteBlackStep
    rw [if_neg h1, if_neg h2]
  · intro hp hfind
    constructor
    · intro hnx
      unfold stepChain
      simp only [hp, hfind]
      rw [if_pos hnx]
    · intro hemp
      unfold stepChain
      simp only [hp, hfind]
      rw [if_neg (fun hx => hx hemp)]
      unfold finishTurn
      rfl
  · intro hcond
    unfold afterApply
    rw [if_pos hcond]
  · intro hcond
    unfold afterApply
    rw [if_neg hcond]
    unfold finishTurn
    rfl

theorem maybePromote_final_square_only_witness :
    parseSquare "f7" = some (6, 5) ∧
    (captureMovesFrom testBoardMid 4 3 WHITE).find?
        (fun m => m.tr == (6 : Int) && m.tc == (5 : Int)) =
      some ⟨4, 3, 6, 5, true, 5, 4⟩ ∧
    captureMovesFrom (applyMove testBoardMid ⟨4, 3, 6, 5, true, 5, 4⟩) 6 5 WHITE = [] ∧
    stepChain testBoardMid WHITE 4 3 "f7" =
      (stepTurnStart
        (maybePromote (applyMove testBoardMid ⟨4, 3, 6, 5, true, 5, 4⟩) 6 5)
        (opponent WHITE), none) :=
  ⟨by decide, by decide, by decide,
    ((maybePromote_final_square_only testBoardMid 0 0 WHITE 4 3 6 5 "f7"
        ⟨4, 3, 6, 5, true, 5, 4⟩ ⟨4, 3, 6, 5, true, 5, 4⟩).2.1 (by decide)
        (by decide)).2 (by decide)⟩

lemma darkOnly_setCell (b : Board) (r c : Int) (p : Piece) (hb : darkOnly b)
    (hp : inBounds r c = true → isDarkSquare r c = true) :
    darkOnly (setCell b r c p) := by
  intro r' c' hin hne
  unfold setCell at hne
  split at hne
  · rename_i hx
    obtain ⟨rfl, rfl⟩ := hx
    exact hp hin
  · exact hb r' c' hin hne

lemma darkOnly_applyMove (b : Board) (mv : Move) (hb : darkOnly b)
    (hf : inBounds mv.fr mv.fc = true → isDarkSquare mv.fr mv.fc = true)
    (ht : inBounds mv.tr mv.tc = true → isDarkSquare mv.tr mv.tc = true)
    (hc : inBounds mv.cr mv.cc = true → isDarkSquare mv.cr mv.cc = true) :
    darkOnly (applyMove b mv) := by
  unfold applyMove
  split
  · exact darkOnly_setCell _ _ _ _
      (darkOnly_setCell _ _ _ _ (darkOnly_setCell _ _ _ _ hb ht) hf) hc
  · exact darkOnly_setCell _ _ _ _ (darkOnly_setCell _ _ _ _ hb ht) hf

lemma dark_step (r c dr dc : Int) (h : isDarkSquare r c = true)
    (hd1 : dr = 1 ∨ dr = -1) (hd2 : dc = 1 ∨ dc = -1) :
    isDarkSquare (r + dr) (c + dc) = true ∧
    isDarkSquare (r + 2 * dr) (c + 2 * dc) = true := by
  rw [isDarkSquare_iff] at h
  constructor <;> rw [isDarkSquare_iff] <;> omega

lemma darkOnly_captureMove (b : Board) (r c : Int) (pl : Player) (mv : Move)
    (hb : darkOnly b) (hin : inBounds r c = true)
    (hm : mv ∈ captureMovesFrom b r c pl) : darkOnly (applyMove b mv) := by
  rw [captureMovesFrom_mem] at hm
  obtain ⟨hbel, d, hd, h1, h2, hE, hen, rfl⟩ := hm
  have hdark : isDarkSquare r c = true := hb r c hin (belongsTo_ne_empty _ _ hbel)
  obtain ⟨hd1, hd2⟩ := pieceDirs_mem _ _ _ hd
  exact darkOnly_applyMove _ _ hb (fun _ => hdark)
    (fun _ => (dark_step r c d.1 d.2 hdark hd1 hd2).2)
    (fun _ => (dark_step r c d.1 d.2 hdark hd1 hd2).1)

lemma darkOnly_simpleMove (b : Board) (r c : Int) (pl : Player) (mv : Move)
    (hb : darkOnly b) (hin : inBounds r c = true)
    (hm : mv ∈ simpleMovesFrom b r c pl) : darkOnly (applyMove b mv) := by
  rw [simpleMovesFrom_mem] at hm
  obtain ⟨hbel, d, hd, h1, hE, rfl⟩ := hm
  have hdark : isDarkSquare r c = true := hb r c hin (belongsTo_ne_empty _ _ hbel)
  obtain ⟨hd1, hd2⟩ := pieceDirs_mem _ _ _ hd
  refine darkOnly_applyMove _ _ hb (fun _ => hdark)
    (fun _ => (dark_step r c d.1 d.2 hdark hd1 hd2).1) ?_
  intro hx
  have hx2 : inBounds (-1) (-1) = true := hx
  exact absurd hx2 (by decide)

lemma darkOnly_init : darkOnly initBoard := by
  intro r c hin hne
  unfold initBoard at hne
  split_ifs at hne with h1 h2
  · exact h1.2.2.2.2
  · exact h2.2.2.2.2
  · exact absurd rfl hne

lemma darkOnly_legalMove (b : Board) (pl : Player) (mv : Move) (hb : darkOnly b)
    (hm : mv ∈ allLegalMoves b pl) : darkOnly (applyMove b mv) := by
  by_cases hcap : allCaptures b pl ≠ []
  · unfold allLegalMoves at hm
    rw [if_pos hcap] at hm
    rw [allCaptures_mem] at hm
    obtain ⟨r, c, hin, hm⟩ := hm
    exact darkOnly_captureMove b r c pl mv hb hin hm
  · unfold allLegalMoves at hm
    rw [if_neg hcap] at hm
    simp only [List.mem_flatMap, mem_range8] at hm
    obtain ⟨r, hr, c, hc, hm⟩ := hm
    exact darkOnly_simpleMove b r c pl mv hb
      (by rw [inBounds_iff]; exact ⟨hr.1, hr.2, hc.1, hc.2⟩) hm

lemma darkOnly_promoteBlackStep (b : Board) (r c : Int) (hb : darkOnly b)
    (hin : inBounds r c = true) : darkOnly (promoteBlackStep b r c) := by
  unfold promoteBlackStep
  split_ifs with h
  · exact darkOnly_setCell _ _ _ _ hb (fun _ => hb r c hin (by rw [h.1]; decide))
  · exact hb

lemma darkOnly_maybePromote (b : Board) (r c : Int) (hb : darkOnly b)
    (hin : inBounds r c = true) : darkOnly (maybePromote b r c) := by
  unfold maybePromote
  refine darkOnly_promoteBlackStep _ _ _ ?_ hin
  split_ifs with h
  · exact darkOnly_setCell _ _ _ _ hb (fun _ => hb r c hin (by rw [h.1]; decide))
  · exact hb

/-- Claim C8: Every board reachable from the initial position by applying
engine-generated moves (legal moves, chain continuations, end-of-turn
promotions) keeps every occupied in-bounds cell on a dark square. -/
theorem reachable_dark_invariant (b : Board) (h : ReachableBoard b) : darkOnly b := by
  induction h with
  | init => exact darkOnly_init
  | legal b pl mv hb hm ih => exact darkOnly_legalMove b pl mv ih hm
  | chain b pl r c mv hb hin hm ih => exact darkOnly_captureMove b r c pl mv ih hin hm
  | promote b r c hb hin ih => exact darkOnly_maybePromote b r c ih hin

theorem reachable_dark_invariant_witness :
    ReachableBoard initBoard ∧ darkOnly initBoard :=
  ⟨ReachableBoard.init, reachable_dark_invariant initBoard ReachableBoard.init⟩

lemma captureMove_cells_distinct (b : Board) (r c : Int) (pl : Player) (m : Move)
    (hm : m ∈ captureMovesFrom b r c pl) :
    ¬(m.tr = m.fr ∧ m.tc = m.fc) ∧
    (m.isCapture = true → ¬(m.tr = m.cr ∧ m.tc = m.cc)) := by
  rw [captureMovesFrom_mem] at hm
  obtain ⟨-, d, hd, -, -, -, -, rfl⟩ := hm
  obtain ⟨hd1, hd2⟩ := pieceDirs_mem _ _ _ hd
  constructor
  · rintro ⟨h1, -⟩
    have h2 : r + 2 * d.1 = r := h1
    rcases hd1 with h | h <;> rw [h] at h2 <;> omega
  · rintro - ⟨h1, -⟩
    have h2 : r + 2 * d.1 = r + d.1 := h1
    rcases hd1 with h | h <;> rw [h] at h2 <;> omega

lemma legalMove_cells_distinct (b : Board) (pl : Player) (m : Move)
    (hm : m ∈ allLegalMoves b pl) :
    ¬(m.tr = m.fr ∧ m.tc = m.fc) ∧
    (m.isCapture = true → ¬(m.tr = m.cr ∧ m.tc = m.cc)) := by
  by_cases hcap : allCaptures b pl ≠ []
  · unfold allLegalMoves at hm
    rw [if_pos hcap, allCaptures_mem] at hm
    obtain ⟨r, c, -, hm⟩ := hm
    exact captureMove_cells_distinct b r c pl m hm
  · unfold allLegalMoves at hm
    rw [if_neg hcap] at hm
    simp only [List.mem_flatMap, mem_range8] at hm
    obtain ⟨r, -, c, -, hm⟩ := hm
    rw [simpleMovesFrom_mem] at hm
    obtain ⟨-, d, hd, -, -, rfl⟩ := hm
    obtain ⟨hd1, hd2⟩ := pieceDirs_mem _ _ _ hd
    constructor
    · rintro ⟨h1, -⟩
      have h2 : r + d.1 = r := h1
      rcases hd1 with h | h <;> rw [h] at h2 <;> omega
    · intro hx
      have hx2 : false = true := hx
      exact absurd hx2 (by decide)
